import Mathlib

/-!
Shallow embedding of the cargo-bom BOM pipeline (src/main.rs).

Rust string slices are byte sequences; we model them as lists of characters
(type Str below).  The external cargo resolver objects (Workspace members,
PackageSet, Resolve) are modelled by explicit records carrying exactly the
data the program reads from them: package identity, declared dependencies
with their kind, the optional license expression and license-file name from
the manifest metadata, and the directory listing of the manifest directory.
Fallible operations return Except.
-/

/-- Rust str / String contents, modelled as a list of characters. -/
abbrev Str := List Char

/-- Uniform error representation: the program converts every failure
(cargo errors and io errors alike) into one fatal error type.  The payload
distinguishes distinct error values. -/
inductive Err where
  | getOneFailed : Err
  | ioError : Nat → Err
deriving DecidableEq, Repr

/-- One entry produced by iterating a directory (fs read_dir).  The field
fileName is the result of entry.file_name().into_string(): none models a
file name that is not valid unicode. -/
structure DirEntry where
  fileName : Option Str
  path : Str
deriving DecidableEq, Repr

/-- The outcome of iterating a manifest directory: each element models one
item yielded by the read_dir iterator, which is itself fallible. -/
abbrev DirListing := List (Except Err DirEntry)

/-- Dependency kind tag (cargo core dependency Kind). -/
inductive Kind where
  | normal : Kind
  | build : Kind
  | development : Kind
deriving DecidableEq, Repr

/-- Package identity: cargo compares packages by their package id.  The
spec data model reduces identity to (name, version). -/
structure PackageId where
  name : Str
  version : Str
deriving DecidableEq, Repr

/-- A declared dependency edge: its resolution rule (matches_id) and kind. -/
structure Dependency where
  matchesId : PackageId → Bool
  kind : Kind

/-- A resolved package: identity, manifest metadata license fields, the
listing of the directory containing its manifest (none models a manifest
path with no parent directory), and its declared dependencies. -/
structure Package where
  id : PackageId
  license : Option Str
  licenseFile : Option Str
  manifestDir : Option (Except Err DirListing)
  dependencies : List Dependency

/-- The PackageSet produced by resolve_ws: the collection of resolved
package ids, with retrieval of the concrete package for an id (get_one),
which is fallible. -/
structure PackageSet where
  ids : List PackageId
  pkgs : PackageId → Option Package

/-- PackageSet get_one: retrieving the package behind a resolved id can
fail (a fatal cargo error). -/
def getOne (ps : PackageSet) (i : PackageId) : Except Err Package :=
  match ps.pkgs i with
  | some p => Except.ok p
  | none => Except.error Err.getOneFailed

/-! ### BTreeSet of packages, keyed by package id

cargo Package equality and ordering are those of its package id, so the
intermediate BTreeSet of packages holds at most one package per id.  We
model it as a list together with insert-if-absent and remove-by-id; the
iteration order of this intermediate set is irrelevant downstream (the
final BOM set re-sorts), so the list order is not significant. -/

/-- BTreeSet insert: a package is added only if no package with its id is
present (insert never replaces an existing equal element). -/
def insertPkg (p : Package) (s : List Package) : List Package :=
  if s.any (fun q => decide (q.id = p.id)) then s else s ++ [p]

/-- BTreeSet remove of a workspace member: drops the package with the
member id (the set holds at most one element per id). -/
def removeById (i : PackageId) (s : List Package) : List Package :=
  s.filter (fun q => decide (q.id ≠ i))

/-! ### DependencyCollector (top_level_dependencies, src/main.rs 144-173) -/

/-- Inner loop of top_level_dependencies over one member's declared
dependencies: Build and Development dependencies are filtered out; a
Normal dependency is looked up among the resolved package ids (find) and,
when a matching id exists, the package is retrieved (get_one, fallible)
and inserted. -/
def collectDeps (ps : PackageSet) : List Dependency → List Package → Except Err (List Package)
  | [], acc => Except.ok acc
  | d :: rest, acc =>
    match d.kind with
    | Kind.build => collectDeps ps rest acc
    | Kind.development => collectDeps ps rest acc
    | Kind.normal =>
      match ps.ids.find? d.matchesId with
      | none => collectDeps ps rest acc
      | some i =>
        match getOne ps i with
        | Except.error e => Except.error e
        | Except.ok p => collectDeps ps rest (insertPkg p acc)

/-- Outer loop of top_level_dependencies over the workspace members. -/
def collectMembers (ps : PackageSet) : List Package → List Package → Except Err (List Package)
  | [], acc => Except.ok acc
  | m :: rest, acc =>
    match collectDeps ps m.dependencies acc with
    | Except.error e => Except.error e
    | Except.ok acc2 => collectMembers ps rest acc2

/-- Model of top_level_dependencies (src/main.rs 144-173): collect the
resolved targets of every member's Normal dependencies, then remove the
workspace members themselves from the set. -/
def top_level_dependencies (members : List Package) (ps : PackageSet) : Except Err (List Package) :=
  match collectMembers ps members [] with
  | Except.error e => Except.error e
  | Except.ok deps => Except.ok (members.foldl (fun s m => removeById m.id s) deps)

/-- Loop of all_dependencies over the resolved graph (resolve.iter()). -/
def allGo (members : List Package) (ps : PackageSet) : List PackageId → List Package → Except Err (List Package)
  | [], acc => Except.ok acc
  | i :: rest, acc =>
    match getOne ps i with
    | Except.error e => Except.error e
    | Except.ok p =>
      if members.any (fun m => decide (m.id = p.id)) then allGo members ps rest acc
      else allGo members ps rest (insertPkg p acc)

/-- Model of all_dependencies (src/main.rs 175-192): iterate every package
id in the resolved graph, retrieve it, skip workspace members, insert the
rest. -/
def all_dependencies (members : List Package) (ps : PackageSet) (resolve : List PackageId) : Except Err (List Package) :=
  allGo members ps resolve []

/-! ### LicenseResolver (package_licenses, src/main.rs 194-214, 238-256) -/

/-- One step of Rust str split with a nonempty pattern: scan left to
right, cutting at each leftmost non-overlapping occurrence of the
separator.  The fuel argument, initialised to the length of the input,
only bounds the recursion; every step consumes at least one character, so
the zero-fuel fallback with a nonempty remainder is unreachable (see
splitGo_fuel_irrelevant). -/
def splitGo (sep : Str) : Nat → Str → Str → List Str
  | _, [], acc => [acc.reverse]
  | 0, rest, acc => [acc.reverse ++ rest]
  | fuel + 1, c :: cs, acc =>
    if sep.isPrefixOf (c :: cs) ∧ sep ≠ [] then
      acc.reverse :: splitGo sep fuel (List.drop sep.length (c :: cs)) []
    else
      splitGo sep fuel cs (c :: acc)

/-- Rust str split on a string or character pattern (the program only
splits on the nonempty patterns OR, AND and the slash character). -/
def splitOnSep (sep : Str) (s : Str) : List Str := splitGo sep s.length s []

/-- Rust str trim: strip whitespace from both ends (the ASCII subset of
whitespace suffices for the strings this program handles). -/
def trimStr (s : Str) : Str :=
  ((s.dropWhile Char.isWhitespace).reverse.dropWhile Char.isWhitespace).reverse

/-! ### BTreeSet of strings, modelled as a sorted duplicate-free list -/

/-- Sorted-set insert: place the element at its ordered position, keeping
the existing element when an equal one is already present (BTreeSet
insert does not replace). -/
def insertSorted {α : Type} [LinearOrder α] (x : α) : List α → List α
  | [] => [x]
  | y :: ys =>
    if x < y then x :: y :: ys
    else if y < x then y :: insertSorted x ys
    else y :: ys

/-- Collect a list into a sorted duplicate-free list (BTreeSet collect). -/
def collectSorted {α : Type} [LinearOrder α] (l : List α) : List α :=
  l.foldl (fun acc x => insertSorted x acc) []

/-- The token multiset produced by the license-expression splitter
(src/main.rs 198-205): split on OR, then split every piece on AND and
flatten, then split every piece on the slash character and flatten, then
trim every piece. -/
def licenseTokens (s : Str) : List Str :=
  ((((splitOnSep "OR".data s).map (splitOnSep "AND".data)).flatten.map
      (splitOnSep "/".data)).flatten).map trimStr

/-- The BTreeSet of license names collected from a license expression. -/
def licenseSet (s : Str) : List Str := collectSorted (licenseTokens s)

/-- License classification (enum Licenses, src/main.rs 238-243). -/
inductive Licenses where
  | licenses : List Str → Licenses
  | file : Str → Licenses
  | missing : Licenses
deriving DecidableEq, Repr

/-- Model of package_licenses (src/main.rs 194-214): a declared license
expression takes priority and is tokenized into a set; otherwise a
declared license-file name is kept as a pointer; otherwise missing. -/
def package_licenses (p : Package) : Licenses :=
  match p.license with
  | some s => Licenses.licenses (licenseSet s)
  | none =>
    match p.licenseFile with
    | some f => Licenses.file f
    | none => Licenses.missing

/-- Display rendering of a license classification (impl Display for
Licenses, src/main.rs 245-256): a fixed literal for the file and missing
cases, the comma-joined sorted names otherwise. -/
def licensesDisplay : Licenses → Str
  | Licenses.file _ => "Specified in license file".data
  | Licenses.missing => "Missing".data
  | Licenses.licenses names => List.intercalate ", ".data names

/-! ### LicenseFileLocator (package_license_files, src/main.rs 216-236) -/

/-- The recognized license file name prefixes (LICENCE_FILE_NAMES). -/
def LICENCE_FILE_NAMES : List Str := ["LICENSE".data, "UNLICENSE".data]

/-- Loop body over one directory listing: per-entry iterator errors and
non-unicode file names are skipped; an entry whose name starts with a
recognized prefix contributes its path once per matching prefix. -/
def locateLicenseFiles : DirListing → List Str → List Str
  | [], acc => acc
  | ent :: rest, acc =>
    match ent with
    | Except.error _ => locateLicenseFiles rest acc
    | Except.ok de =>
      match de.fileName with
      | none => locateLicenseFiles rest acc
      | some n =>
        locateLicenseFiles rest
          (LICENCE_FILE_NAMES.foldl
            (fun a pre => if pre.isPrefixOf n then a ++ [de.path] else a) acc)

/-- Model of package_license_files (src/main.rs 216-236): no parent
directory yields an empty list; failure to open the directory is
propagated; otherwise the matching entries are collected in iteration
order. -/
def package_license_files (p : Package) : Except Err (List Str) :=
  match p.manifestDir with
  | none => Except.ok []
  | some (Except.error e) => Except.error e
  | some (Except.ok entries) => Except.ok (locateLicenseFiles entries [])

/-! ### BOM entry collection (real_main, src/main.rs 89-96) -/

/-- A BOM entry: the four-tuple (name, version, license display string,
license file list), ordered lexicographically as the Rust tuple is. -/
abbrev BomEntry := Str ×ₗ (Str ×ₗ (Str ×ₗ List Str))

/-- The tuple inserted into the packages BTreeSet for one dependency. -/
def mkEntry (p : Package) (files : List Str) : BomEntry :=
  toLex (p.id.name, toLex (p.id.version, toLex (licensesDisplay (package_licenses p), files)))

/-- Model of the collection loop of real_main (src/main.rs 89-96): for
each collected dependency, compute the entry tuple and insert it into the
BTreeSet; a license-file lookup failure aborts the loop. -/
def bom_entries : List Package → List BomEntry → Except Err (List BomEntry)
  | [], acc => Except.ok acc
  | p :: rest, acc =>
    match package_license_files p with
    | Except.error e => Except.error e
    | Except.ok files => bom_entries rest (insertSorted (mkEntry p files) acc)

/-! ### License text dump (real_main, src/main.rs 116-138) -/

/-- Field accessors of a BOM entry. -/
def entryName (e : BomEntry) : Str := (ofLex e).1

/-- Version field of a BOM entry. -/
def entryVersion (e : BomEntry) : Str := (ofLex (ofLex e).2).1

/-- License display field of a BOM entry. -/
def entryLicenses (e : BomEntry) : Str := (ofLex (ofLex (ofLex e).2).2).1

/-- License file list field of a BOM entry. -/
def entryFiles (e : BomEntry) : List Str := (ofLex (ofLex (ofLex e).2).2).2

/-- The begin marker line written before an entry's license texts. -/
def beginMarker (n v : Str) : Str :=
  "-----BEGIN ".data ++ n ++ " ".data ++ v ++ " LICENSES-----\n".data

/-- The end marker line written after an entry's license texts. -/
def endMarker (n v : Str) : Str :=
  "-----END ".data ++ n ++ " ".data ++ v ++ " LICENSES-----\n".data

/-- The marker written between two license files of the same entry. -/
def nextMarker : Str := "\n-----NEXT LICENSE-----\n".data

/-- Inner loop of the dump phase (src/main.rs 123-134): write each file's
raw contents; while more than one license remains to print, follow the
contents with the next-license marker and decrement the counter.  The
readFile argument models the filesystem contents at the dump's paths. -/
def licenseDumpFiles (readFile : Str → Str) : List Str → Nat → List Str
  | [], _ => []
  | f :: rest, count =>
    if count > 1 then readFile f :: nextMarker :: licenseDumpFiles readFile rest (count - 1)
    else readFile f :: licenseDumpFiles readFile rest count

/-- Output chunks the dump phase emits for one entry (src/main.rs
116-138): entries with no license files are skipped; otherwise the begin
marker, the file contents interleaved with next-license markers, the end
marker and a blank line. -/
def licenseDumpEntry (readFile : Str → Str) (e : BomEntry) : List Str :=
  if (entryFiles e).isEmpty then []
  else
    beginMarker (entryName e) (entryVersion e) ::
      (licenseDumpFiles readFile (entryFiles e) (entryFiles e).length ++
        [endMarker (entryName e) (entryVersion e), "\n".data])

/-- The whole dump phase: entries are processed in the order of the
(sorted) entry collection. -/
def license_dump (readFile : Str → Str) (entries : List BomEntry) : List Str :=
  entries.flatMap (licenseDumpEntry readFile)

/-! ### Definitions modelled from the spec, for comparison with the code -/

/-- Modelled from the spec (section 4.2): split the license expression on
the literal separators OR, AND and the slash, trim whitespace from each
resulting token, discard empty tokens, and collect the distinct tokens
into a sorted set.  Written from the spec's words to compare with the
code's licenseSet. -/
def spec_license_set (s : Str) : List Str :=
  collectSorted
    ((([ "OR".data, "AND".data, "/".data ].foldl
        (fun parts sep => (parts.map (splitOnSep sep)).flatten) [s]).map trimStr).filter
      (fun t => !t.isEmpty))

/-- Modelled from the spec (section 4.2), without the discard-empties
step: the same tokenization, keeping every trimmed token. -/
def spec_license_set_keeping_empties (s : Str) : List Str :=
  collectSorted
    (([ "OR".data, "AND".data, "/".data ].foldl
        (fun parts sep => (parts.map (splitOnSep sep)).flatten) [s]).map trimStr)

/-! ### Generic facts about the sorted-set insert -/

theorem mem_insertSorted {α : Type} [LinearOrder α] (x z : α) (s : List α) :
    z ∈ insertSorted x s ↔ z = x ∨ z ∈ s := by
  induction s with
  | nil => simp [insertSorted]
  | cons y ys ih =>
    by_cases h1 : x < y
    · simp only [insertSorted, if_pos h1, List.mem_cons]
    · by_cases h2 : y < x
      · simp only [insertSorted, if_neg h1, if_pos h2, List.mem_cons, ih]
        tauto
      · have hxy : x = y := le_antisymm (le_of_not_lt h2) (le_of_not_lt h1)
        simp only [insertSorted, if_neg h1, if_neg h2, List.mem_cons]
        subst hxy
        tauto

theorem pairwise_insertSorted {α : Type} [LinearOrder α] (x : α) (s : List α)
    (h : List.Pairwise (· < ·) s) : List.Pairwise (· < ·) (insertSorted x s) := by
  induction s with
  | nil => simp [insertSorted]
  | cons y ys ih =>
    rcases List.pairwise_cons.1 h with ⟨hy, hys⟩
    by_cases h1 : x < y
    · simp only [insertSorted, if_pos h1]
      refine List.pairwise_cons.2 ⟨?_, h⟩
      intro z hz
      rcases List.mem_cons.1 hz with rfl | hz2
      · exact h1
      · exact lt_trans h1 (hy z hz2)
    · by_cases h2 : y < x
      · simp only [insertSorted, if_neg h1, if_pos h2]
        refine List.pairwise_cons.2 ⟨?_, ih hys⟩
        intro z hz
        rcases (mem_insertSorted x z ys).1 hz with rfl | hz2
        · exact h2
        · exact hy z hz2
      · simpa only [insertSorted, if_neg h1, if_neg h2] using h

/-! ### Claim C3 -/

/-- C3: for each of the three license expression inputs MIT OR Apache-2.0,
MIT/Apache-2.0 and MIT AND Apache-2.0, the license resolver produces
exactly the set of the two names MIT and Apache-2.0 (sorted for display),
so the three separators are interchangeable for these inputs. -/
theorem c3_separator_insensitivity :
    licenseSet "MIT OR Apache-2.0".data = ["Apache-2.0".data, "MIT".data]
    ∧ licenseSet "MIT/Apache-2.0".data = ["Apache-2.0".data, "MIT".data]
    ∧ licenseSet "MIT AND Apache-2.0".data = ["Apache-2.0".data, "MIT".data] := by
  refine ⟨?_, ?_, ?_⟩ <;> decide

/-! ### Claim C2 -/

/-- A concrete package whose declared license expression ends in a
separator. -/
def c2pkg : Package :=
  ⟨⟨"demo".data, "0.1.0".data⟩, some "MIT OR".data, none, none, []⟩

/-- C2 (counterexample): on the input MIT OR, the code's license set
contains the empty string, while the set described by the claim (split,
trim, discard empties, dedupe) does not; so the classification is not
Explicit of the claimed set and the empty string can be an element. -/
theorem c2_counterexample :
    package_licenses c2pkg = Licenses.licenses [[], "MIT".data]
    ∧ spec_license_set "MIT OR".data = ["MIT".data]
    ∧ package_licenses c2pkg ≠ Licenses.licenses (spec_license_set "MIT OR".data) := by
  refine ⟨?_, ?_, ?_⟩ <;> decide

/-- C2 (amended): for every package with a declared license expression S,
the classification is Explicit of the set obtained by splitting on the
literal separators OR, AND and the slash, trimming each token, and
collecting the distinct tokens; empty tokens are not discarded, so the
empty string can be an element of the set (for example for MIT OR). -/
theorem c2_amended (i : PackageId) (s : Str) (lf : Option Str)
    (d : Option (Except Err DirListing)) (deps : List Dependency) :
    package_licenses ⟨i, some s, lf, d, deps⟩
      = Licenses.licenses (spec_license_set_keeping_empties s)
    ∧ ([] : Str) ∈ licenseSet "MIT OR".data := by
  constructor
  · show Licenses.licenses (licenseSet s) = _
    have : spec_license_set_keeping_empties s = licenseSet s := by
      simp [spec_license_set_keeping_empties, licenseSet, licenseTokens, collectSorted]
    rw [this]
  · decide

/-! ### Claim C6 -/

/-- C6: license classification follows a strict priority order: a declared
license expression yields Explicit even when a license-file name is also
present; otherwise a license-file name yields the fixed specified-in-file
display literal (never the file's contents, which the classification does
not read); otherwise the classification is Missing with the fixed missing
display literal. -/
theorem c6_license_priority (i : PackageId) (s f : Str) (lf : Option Str)
    (d : Option (Except Err DirListing)) (deps : List Dependency) :
    package_licenses ⟨i, some s, lf, d, deps⟩ = Licenses.licenses (licenseSet s)
    ∧ package_licenses ⟨i, none, some f, d, deps⟩ = Licenses.file f
    ∧ licensesDisplay (Licenses.file f) = "Specified in license file".data
    ∧ package_licenses ⟨i, none, none, d, deps⟩ = Licenses.missing
    ∧ licensesDisplay Licenses.missing = "Missing".data :=
  ⟨rfl, rfl, rfl, rfl, rfl⟩

/-! ### Claim C7 and claim C10: the license file locator -/

/-- The selector the locator realizes on a single directory-iterator item:
a successfully read entry whose unicode file name starts with one of the
recognized prefixes contributes its path; every other item contributes
nothing. -/
def pickEntry (ent : Except Err DirEntry) : Option Str :=
  match ent with
  | Except.error _ => none
  | Except.ok de =>
    match de.fileName with
    | none => none
    | some n =>
      if LICENCE_FILE_NAMES.any (fun pre => pre.isPrefixOf n) then some de.path else none

theorem license_prefixes_disjoint (n : Str) :
    ¬("LICENSE".data.isPrefixOf n = true ∧ "UNLICENSE".data.isPrefixOf n = true) := by
  rintro ⟨h1, h2⟩
  cases n with
  | nil =>
    have h1b : (['L', 'I', 'C', 'E', 'N', 'S', 'E'] : Str).isPrefixOf [] = true := h1
    simp [List.isPrefixOf] at h1b
  | cons c cs =>
    have h1b : (['L', 'I', 'C', 'E', 'N', 'S', 'E'] : Str).isPrefixOf (c :: cs) = true := h1
    have h2b : (['U', 'N', 'L', 'I', 'C', 'E', 'N', 'S', 'E'] : Str).isPrefixOf (c :: cs) = true := h2
    simp only [List.isPrefixOf, Bool.and_eq_true, beq_iff_eq] at h1b h2b
    have := h1b.1.trans h2b.1.symm
    simp at this

theorem pushes_eq (n p : Str) (a : List Str) :
    LICENCE_FILE_NAMES.foldl (fun a2 pre => if pre.isPrefixOf n then a2 ++ [p] else a2) a
      = a ++ (if LICENCE_FILE_NAMES.any (fun pre => pre.isPrefixOf n) then [p] else []) := by
  by_cases hL : "LICENSE".data.isPrefixOf n = true
  · have hU : ¬"UNLICENSE".data.isPrefixOf n = true := fun hU2 =>
      absurd ⟨hL, hU2⟩ (license_prefixes_disjoint n)
    have hLp : "LICENSE".data <+: n := List.isPrefixOf_iff_prefix.mp hL
    have hUp : ¬"UNLICENSE".data <+: n := fun h => hU (List.isPrefixOf_iff_prefix.mpr h)
    simp [LICENCE_FILE_NAMES, hLp, hUp]
  · have hLp : ¬"LICENSE".data <+: n := fun h => hL (List.isPrefixOf_iff_prefix.mpr h)
    by_cases hU : "UNLICENSE".data.isPrefixOf n = true
    · have hUp : "UNLICENSE".data <+: n := List.isPrefixOf_iff_prefix.mp hU
      simp [LICENCE_FILE_NAMES, hLp, hUp]
    · have hUp : ¬"UNLICENSE".data <+: n := fun h => hU (List.isPrefixOf_iff_prefix.mpr h)
      simp [LICENCE_FILE_NAMES, hLp, hUp]

theorem locate_eq_filterMap (entries : DirListing) :
    ∀ acc : List Str, locateLicenseFiles entries acc = acc ++ entries.filterMap pickEntry := by
  induction entries with
  | nil => intro acc; simp [locateLicenseFiles]
  | cons ent rest ih =>
    intro acc
    cases ent with
    | error e => simp [locateLicenseFiles, pickEntry, ih]
    | ok de =>
      cases hf : de.fileName with
      | none => simp [locateLicenseFiles, hf, pickEntry, ih]
      | some n =>
        simp only [locateLicenseFiles, hf, pushes_eq, ih, pickEntry, List.filterMap_cons]
        by_cases hm : LICENCE_FILE_NAMES.any (fun pre => pre.isPrefixOf n) = true
        · simp [hm]
        · simp only [Bool.not_eq_true] at hm
          simp [hm]

/-- C7: the locator returns exactly the direct entries whose unicode file
name starts, case-sensitively, with LICENSE or UNLICENSE, in directory
iteration order without further sorting; it returns an empty list when the
manifest directory is not resolvable, and a failure to open the directory
is propagated as an error rather than swallowed. -/
theorem c7_locator (i : PackageId) (lic lf : Option Str) (deps : List Dependency)
    (e : Err) (entries : DirListing) :
    package_license_files ⟨i, lic, lf, none, deps⟩ = Except.ok []
    ∧ package_license_files ⟨i, lic, lf, some (Except.error e), deps⟩ = Except.error e
    ∧ package_license_files ⟨i, lic, lf, some (Except.ok entries), deps⟩
        = Except.ok (entries.filterMap pickEntry) := by
  refine ⟨rfl, rfl, ?_⟩
  show Except.ok (locateLicenseFiles entries []) = _
  rw [locate_eq_filterMap]
  simp

/-- C10: the locator silently skips a directory item whose per-entry read
failed and an entry whose file name is not valid unicode: such items never
change the result and never cause an error; iterating an opened directory
always succeeds. -/
theorem c10_skips_bad_entries (i : PackageId) (lic lf : Option Str) (deps : List Dependency)
    (l1 l2 : DirListing) (e : Err) (de : DirEntry) (entries : DirListing) :
    package_license_files ⟨i, lic, lf, some (Except.ok (l1 ++ Except.error e :: l2)), deps⟩
      = package_license_files ⟨i, lic, lf, some (Except.ok (l1 ++ l2)), deps⟩
    ∧ (de.fileName = none →
        package_license_files ⟨i, lic, lf, some (Except.ok (l1 ++ Except.ok de :: l2)), deps⟩
          = package_license_files ⟨i, lic, lf, some (Except.ok (l1 ++ l2)), deps⟩)
    ∧ ∃ r, package_license_files ⟨i, lic, lf, some (Except.ok entries), deps⟩ = Except.ok r := by
  refine ⟨?_, fun hf => ?_, ⟨locateLicenseFiles entries [], rfl⟩⟩
  · show Except.ok (locateLicenseFiles (l1 ++ Except.error e :: l2) [])
      = Except.ok (locateLicenseFiles (l1 ++ l2) [])
    rw [locate_eq_filterMap, locate_eq_filterMap]
    simp [List.filterMap_append, List.filterMap_cons, pickEntry]
  · show Except.ok (locateLicenseFiles (l1 ++ Except.ok de :: l2) [])
      = Except.ok (locateLicenseFiles (l1 ++ l2) [])
    rw [locate_eq_filterMap, locate_eq_filterMap]
    simp [List.filterMap_append, List.filterMap_cons, pickEntry, hf]

/-- A directory entry with a non-unicode file name, for the C10 witness. -/
def badNameEntry : DirEntry := ⟨none, "pkg/badname".data⟩

/-- A directory entry for a LICENSE-MIT file. -/
def licenseMitEntry : DirEntry := ⟨some "LICENSE-MIT".data, "pkg/LICENSE-MIT".data⟩

/-- Witness for C10 at a concrete directory listing. -/
theorem c10_skips_bad_entries_witness :
    package_license_files ⟨⟨"demo".data, "0.1.0".data⟩, none, none,
        some (Except.ok [Except.ok licenseMitEntry, Except.error (Err.ioError 3)]), []⟩
      = package_license_files ⟨⟨"demo".data, "0.1.0".data⟩, none, none,
        some (Except.ok [Except.ok licenseMitEntry]), []⟩
    ∧ (badNameEntry.fileName = none →
        package_license_files ⟨⟨"demo".data, "0.1.0".data⟩, none, none,
            some (Except.ok [Except.ok licenseMitEntry, Except.ok badNameEntry]), []⟩
          = package_license_files ⟨⟨"demo".data, "0.1.0".data⟩, none, none,
            some (Except.ok [Except.ok licenseMitEntry]), []⟩)
    ∧ ∃ r, package_license_files ⟨⟨"demo".data, "0.1.0".data⟩, none, none,
        some (Except.ok [Except.ok licenseMitEntry, Except.ok badNameEntry]), []⟩ = Except.ok r := by
  have h := c10_skips_bad_entries ⟨"demo".data, "0.1.0".data⟩ none none []
    [Except.ok licenseMitEntry] [] (Err.ioError 3) badNameEntry
    [Except.ok licenseMitEntry, Except.ok badNameEntry]
  exact ⟨h.1, fun hf => h.2.1 hf, h.2.2⟩

/-! ### Claim C8: the license text dump -/

theorem licenseDumpFiles_eq_intersperse (rf : Str → Str) (files : List Str) :
    ∀ k, k = files.length →
      licenseDumpFiles rf files k = List.intersperse nextMarker (files.map rf) := by
  induction files with
  | nil => intro k hk; rfl
  | cons f rest ih =>
    intro k hk
    cases rest with
    | nil =>
      subst hk
      simp [licenseDumpFiles, List.intersperse]
    | cons g t =>
      have hk2 : k = t.length + 2 := by simp [hk]
      have hgt : k > 1 := by omega
      have hk3 : k - 1 = (g :: t).length := by simp; omega
      simp only [licenseDumpFiles, if_pos hgt]
      have ih2 := ih (k - 1) hk3
      simp only [licenseDumpFiles] at ih2
      rw [ih2]
      simp [List.map, List.intersperse]

theorem entryName_mk (n v lic : Str) (files : List Str) :
    entryName (toLex (n, toLex (v, toLex (lic, files)))) = n := rfl

theorem entryVersion_mk (n v lic : Str) (files : List Str) :
    entryVersion (toLex (n, toLex (v, toLex (lic, files)))) = v := rfl

theorem entryLicenses_mk (n v lic : Str) (files : List Str) :
    entryLicenses (toLex (n, toLex (v, toLex (lic, files)))) = lic := rfl

theorem entryFiles_mk (n v lic : Str) (files : List Str) :
    entryFiles (toLex (n, toLex (v, toLex (lic, files)))) = files := rfl

/-- C8: in the dump phase an entry with an empty license-file list is
skipped entirely; an entry with n files yields the begin marker naming
package and version, the raw contents of the files in locator order with
exactly one separator marker between consecutive files and none after the
last (the intersperse shape), the end marker, and a blank line; the
entries are processed sequentially in the order of the sorted entry
collection. -/
theorem c8_dump_format (rf : Str → Str) (n v lic : Str) (files : List Str)
    (e : BomEntry) (rest : List BomEntry) :
    licenseDumpEntry rf (toLex (n, toLex (v, toLex (lic, files))))
      = (if files = [] then []
         else beginMarker n v ::
           (List.intersperse nextMarker (files.map rf) ++ [endMarker n v, "\n".data]))
    ∧ license_dump rf (e :: rest) = licenseDumpEntry rf e ++ license_dump rf rest
    ∧ license_dump rf [] = [] := by
  refine ⟨?_, by simp [license_dump], rfl⟩
  cases files with
  | nil => rfl
  | cons f t =>
    have h1 : licenseDumpEntry rf (toLex (n, toLex (v, toLex (lic, f :: t))))
        = beginMarker n v ::
          (licenseDumpFiles rf (f :: t) (f :: t).length ++ [endMarker n v, "\n".data]) := by
      simp [licenseDumpEntry, entryFiles_mk, entryName_mk, entryVersion_mk]
    rw [h1, licenseDumpFiles_eq_intersperse rf (f :: t) (f :: t).length rfl]
    simp

/-! ### Facts about the package-set operations -/

theorem mem_insertPkg (p : Package) (s : List Package) (z : Package)
    (h : z ∈ insertPkg p s) : z ∈ s ∨ z = p := by
  by_cases hc : s.any (fun q => decide (q.id = p.id)) = true
  · rw [insertPkg, if_pos hc] at h
    exact Or.inl h
  · rw [insertPkg, if_neg hc] at h
    rcases List.mem_append.1 h with h2 | h2
    · exact Or.inl h2
    · exact Or.inr (List.mem_singleton.1 h2)

theorem mem_removeById (i : PackageId) (s : List Package) (p : Package) :
    p ∈ removeById i s ↔ p ∈ s ∧ p.id ≠ i := by
  simp [removeById, List.mem_filter]

theorem mem_foldl_removeById (ms : List Package) :
    ∀ (s : List Package) (p : Package),
      p ∈ ms.foldl (fun s m => removeById m.id s) s → p ∈ s ∧ ∀ m ∈ ms, p.id ≠ m.id := by
  induction ms with
  | nil =>
    intro s p h
    exact ⟨h, by simp⟩
  | cons m rest ih =>
    intro s p h
    have h2 := ih (removeById m.id s) p h
    rcases (mem_removeById m.id s p).1 h2.1 with ⟨hs, hne⟩
    refine ⟨hs, ?_⟩
    intro m2 hm2
    rcases List.mem_cons.1 hm2 with rfl | h3
    · exact hne
    · exact h2.2 m2 h3

theorem allGo_excludes_members (members : List Package) (ps : PackageSet) :
    ∀ (resolve : List PackageId) (acc s : List Package),
      allGo members ps resolve acc = Except.ok s →
      (∀ q ∈ acc, ∀ m ∈ members, q.id ≠ m.id) →
      ∀ p ∈ s, ∀ m ∈ members, p.id ≠ m.id := by
  intro resolve
  induction resolve with
  | nil =>
    intro acc s h hacc
    simp only [allGo] at h
    injection h with h2
    subst h2
    exact hacc
  | cons i rest ih =>
    intro acc s h hacc
    simp only [allGo] at h
    cases hg : getOne ps i with
    | error e =>
      rw [hg] at h
      simp at h
    | ok p2 =>
      rw [hg] at h
      dsimp only at h
      by_cases hm : members.any (fun m => decide (m.id = p2.id)) = true
      · rw [if_pos hm] at h
        exact ih acc s h hacc
      · rw [if_neg hm] at h
        refine ih (insertPkg p2 acc) s h ?_
        intro q hq m2 hm2
        rcases mem_insertPkg p2 acc q hq with hq2 | rfl
        · exact hacc q hq2 m2 hm2
        · have hmf : members.any (fun m => decide (m.id = q.id)) = false := by
            simpa using hm
          rw [List.any_eq_false] at hmf
          intro heq
          exact hmf m2 hm2 (decide_eq_true heq.symm)

/-! ### Claim C4 -/

/-- C4: for every resolved graph and workspace member set, no package
whose identity is a workspace member appears in the collector's result
set, in Top-level mode or in All mode, even when another member depends
on it. -/
theorem c4_members_never_in_result (members : List Package) (ps : PackageSet)
    (resolve : List PackageId) (s1 s2 : List Package) :
    (top_level_dependencies members ps = Except.ok s1 →
      ∀ p ∈ s1, ∀ m ∈ members, p.id ≠ m.id)
    ∧ (all_dependencies members ps resolve = Except.ok s2 →
      ∀ p ∈ s2, ∀ m ∈ members, p.id ≠ m.id) := by
  constructor
  · intro h p hp m hm
    simp only [top_level_dependencies] at h
    cases hc : collectMembers ps members [] with
    | error e =>
      rw [hc] at h
      simp at h
    | ok deps =>
      rw [hc] at h
      injection h with h2
      subst h2
      exact (mem_foldl_removeById members deps p hp).2 m hm
  · intro h
    exact allGo_excludes_members members ps resolve [] s2 h (by simp)

/-! ### Concrete sample workspace used by the witnesses -/

/-- Identity of the sample workspace member. -/
def memberId : PackageId := ⟨"app".data, "0.1.0".data⟩

/-- Identity of the sample normal dependency target. -/
def depId : PackageId := ⟨"left-pad".data, "1.0.0".data⟩

/-- Identity of the sample build dependency target. -/
def buildDepId : PackageId := ⟨"cc".data, "1.0.0".data⟩

/-- A Normal-kind declared dependency resolving to depId. -/
def normalDep : Dependency := ⟨fun i => decide (i = depId), Kind.normal⟩

/-- A Build-kind declared dependency resolving to buildDepId. -/
def buildDep : Dependency := ⟨fun i => decide (i = buildDepId), Kind.build⟩

/-- The sample normal dependency package. -/
def depPkg : Package := ⟨depId, some "MIT".data, none, none, []⟩

/-- The sample build dependency package. -/
def buildDepPkg : Package := ⟨buildDepId, some "MIT".data, none, none, []⟩

/-- The sample workspace member, with one normal and one build
dependency. -/
def memberPkg : Package := ⟨memberId, none, none, none, [normalDep, buildDep]⟩

/-- The sample resolved package set. -/
def samplePS : PackageSet :=
  ⟨[memberId, depId, buildDepId],
   fun i =>
     if i = memberId then some memberPkg
     else if i = depId then some depPkg
     else if i = buildDepId then some buildDepPkg
     else none⟩

/-- Witness for C4: in the sample workspace both modes produce exactly the
dependency package, whose identity differs from the member's. -/
theorem c4_members_never_in_result_witness :
    depPkg.id ≠ memberPkg.id ∧ depPkg.id ≠ memberPkg.id := by
  have h := c4_members_never_in_result [memberPkg] samplePS [memberId, depId] [depPkg] [depPkg]
  exact ⟨h.1 rfl depPkg (List.mem_singleton.mpr rfl) memberPkg (List.mem_singleton.mpr rfl),
    h.2 rfl depPkg (List.mem_singleton.mpr rfl) memberPkg (List.mem_singleton.mpr rfl)⟩

/-! ### Claim C9 -/

theorem collectDeps_provenance (ps : PackageSet) :
    ∀ (deps : List Dependency) (acc out : List Package),
      collectDeps ps deps acc = Except.ok out →
      ∀ p ∈ out, p ∈ acc ∨ ∃ d ∈ deps, d.kind = Kind.normal ∧
        ∃ i, ps.ids.find? d.matchesId = some i ∧ getOne ps i = Except.ok p := by
  intro deps
  induction deps with
  | nil =>
    intro acc out h p hp
    simp only [collectDeps] at h
    injection h with h2
    subst h2
    exact Or.inl hp
  | cons d rest ih =>
    intro acc out h p hp
    simp only [collectDeps] at h
    cases hk : d.kind with
    | build =>
      rw [hk] at h
      dsimp only at h
      rcases ih acc out h p hp with h2 | ⟨d2, hd2, h3⟩
      · exact Or.inl h2
      · exact Or.inr ⟨d2, List.mem_cons_of_mem d hd2, h3⟩
    | development =>
      rw [hk] at h
      dsimp only at h
      rcases ih acc out h p hp with h2 | ⟨d2, hd2, h3⟩
      · exact Or.inl h2
      · exact Or.inr ⟨d2, List.mem_cons_of_mem d hd2, h3⟩
    | normal =>
      rw [hk] at h
      dsimp only at h
      cases hf : ps.ids.find? d.matchesId with
      | none =>
        rw [hf] at h
        dsimp only at h
        rcases ih acc out h p hp with h2 | ⟨d2, hd2, h3⟩
        · exact Or.inl h2
        · exact Or.inr ⟨d2, List.mem_cons_of_mem d hd2, h3⟩
      | some i =>
        rw [hf] at h
        dsimp only at h
        cases hg : getOne ps i with
        | error e =>
          rw [hg] at h
          simp at h
        | ok p2 =>
          rw [hg] at h
          dsimp only at h
          rcases ih (insertPkg p2 acc) out h p hp with h2 | ⟨d2, hd2, h3⟩
          · rcases mem_insertPkg p2 acc p h2 with h4 | rfl
            · exact Or.inl h4
            · exact Or.inr ⟨d, List.mem_cons_self d rest, hk, i, hf, hg⟩
          · exact Or.inr ⟨d2, List.mem_cons_of_mem d hd2, h3⟩

theorem collectMembers_provenance (ps : PackageSet) :
    ∀ (ms acc out : List Package),
      collectMembers ps ms acc = Except.ok out →
      ∀ p ∈ out, p ∈ acc ∨ ∃ m ∈ ms, ∃ d ∈ m.dependencies, d.kind = Kind.normal ∧
        ∃ i, ps.ids.find? d.matchesId = some i ∧ getOne ps i = Except.ok p := by
  intro ms
  induction ms with
  | nil =>
    intro acc out h p hp
    simp only [collectMembers] at h
    injection h with h2
    subst h2
    exact Or.inl hp
  | cons m rest ih =>
    intro acc out h p hp
    simp only [collectMembers] at h
    cases hc : collectDeps ps m.dependencies acc with
    | error e =>
      rw [hc] at h
      simp at h
    | ok acc2 =>
      rw [hc] at h
      dsimp only at h
      rcases ih acc2 out h p hp with h2 | ⟨m2, hm2, rest2⟩
      · rcases collectDeps_provenance ps m.dependencies acc acc2 hc p h2 with h3 | ⟨d, hd, h4⟩
        · exact Or.inl h3
        · exact Or.inr ⟨m, List.mem_cons_self m rest, d, hd, h4⟩
      · exact Or.inr ⟨m2, List.mem_cons_of_mem m hm2, rest2⟩

/-- C9: in Top-level mode every package in the collected set arises from
some member's declared dependency of Normal kind (matched among the
resolved ids and retrieved); in particular a dependency declared with
Build or Development kind is never the source of a collected package. -/
theorem c9_only_normal_kind (members : List Package) (ps : PackageSet) (s : List Package)
    (h : top_level_dependencies members ps = Except.ok s) :
    ∀ p ∈ s, ∃ m ∈ members, ∃ d ∈ m.dependencies, d.kind = Kind.normal ∧
      ∃ i, ps.ids.find? d.matchesId = some i ∧ getOne ps i = Except.ok p := by
  intro p hp
  simp only [top_level_dependencies] at h
  cases hc : collectMembers ps members [] with
  | error e =>
    rw [hc] at h
    simp at h
  | ok deps =>
    rw [hc] at h
    dsimp only at h
    injection h with h2
    subst h2
    have hp2 := (mem_foldl_removeById members deps p hp).1
    rcases collectMembers_provenance ps members [] deps hc p hp2 with h3 | h3
    · simp at h3
    · exact h3

/-- Witness for C9 at the sample workspace: the single collected package
is traceable to the member's Normal dependency. -/
theorem c9_only_normal_kind_witness :
    ∃ m ∈ [memberPkg], ∃ d ∈ m.dependencies, d.kind = Kind.normal ∧
      ∃ i, samplePS.ids.find? d.matchesId = some i ∧ getOne samplePS i = Except.ok depPkg :=
  c9_only_normal_kind [memberPkg] samplePS [depPkg] rfl depPkg (List.mem_singleton.mpr rfl)

/-! ### Claim C1 -/

/-- A Normal dependency whose matching rule matches no resolved id. -/
def unmatchedDep : Dependency :=
  ⟨fun i => decide (i = ⟨"ghost".data, "9.9.9".data⟩), Kind.normal⟩

/-- A workspace member declaring only the unmatched dependency. -/
def unmatchedMember : Package := ⟨memberId, none, none, none, [unmatchedDep]⟩

/-- C1 (counterexample): a workspace member declares a Normal dependency
that matches no package id in the resolved graph, yet the collector
returns ok with the dependency silently dropped, not a fatal error. -/
theorem c1_counterexample :
    unmatchedMember.dependencies = [unmatchedDep]
    ∧ unmatchedDep.kind = Kind.normal
    ∧ samplePS.ids.find? unmatchedDep.matchesId = none
    ∧ top_level_dependencies [unmatchedMember] samplePS = Except.ok [] :=
  ⟨rfl, rfl, rfl, rfl⟩

theorem collectDeps_skip_unmatched (ps : PackageSet) (d : Dependency)
    (hd : ps.ids.find? d.matchesId = none) :
    ∀ (l1 l2 : List Dependency) (acc : List Package),
      collectDeps ps (l1 ++ d :: l2) acc = collectDeps ps (l1 ++ l2) acc := by
  intro l1
  induction l1 with
  | nil =>
    intro l2 acc
    simp only [List.nil_append, collectDeps]
    cases hk : d.kind with
    | build => rfl
    | development => rfl
    | normal =>
      rw [hd]
  | cons e rest ih =>
    intro l2 acc
    simp only [List.cons_append, collectDeps]
    cases hk : e.kind with
    | build => exact ih l2 acc
    | development => exact ih l2 acc
    | normal =>
      dsimp only
      cases hf : ps.ids.find? e.matchesId with
      | none => exact ih l2 acc
      | some i =>
        dsimp only
        cases hg : getOne ps i with
        | error e2 => rfl
        | ok p => exact ih l2 (insertPkg p acc)

theorem collectMembers_congr_middle (ps : PackageSet) (m m2 : Package)
    (hsame : ∀ acc, collectDeps ps m.dependencies acc = collectDeps ps m2.dependencies acc) :
    ∀ (pre post : List Package) (acc : List Package),
      collectMembers ps (pre ++ m :: post) acc = collectMembers ps (pre ++ m2 :: post) acc := by
  intro pre
  induction pre with
  | nil =>
    intro post acc
    simp only [List.nil_append, collectMembers]
    rw [hsame acc]
  | cons q rest ih =>
    intro post acc
    simp only [List.cons_append, collectMembers]
    cases hc : collectDeps ps q.dependencies acc with
    | error e => rfl
    | ok acc2 => exact ih post acc2

theorem foldl_removeById_congr (m m2 : Package) (hid : m.id = m2.id) :
    ∀ (pre post : List Package) (s : List Package),
      (pre ++ m :: post).foldl (fun s q => removeById q.id s) s
        = (pre ++ m2 :: post).foldl (fun s q => removeById q.id s) s := by
  intro pre
  induction pre with
  | nil =>
    intro post s
    simp only [List.nil_append, List.foldl_cons, hid]
  | cons q rest ih =>
    intro post s
    simp only [List.cons_append, List.foldl_cons]
    exact ih post (removeById q.id s)

/-- C1 (amended): in Top-level mode a Normal declared dependency that
cannot be matched to any package id in the resolved graph is silently
skipped, not a fatal error: deleting it from the member's declared
dependency list leaves the collector's result unchanged (so it
contributes no entry and raises no error); only retrieval of a matched id
can fail the collection. -/
theorem c1_unmatched_silently_skipped (ps : PackageSet) (d : Dependency)
    (hd : ps.ids.find? d.matchesId = none)
    (i : PackageId) (lic lf : Option Str) (dir : Option (Except Err DirListing))
    (l1 l2 : List Dependency) (pre post : List Package) :
    top_level_dependencies (pre ++ (⟨i, lic, lf, dir, l1 ++ d :: l2⟩ : Package) :: post) ps
      = top_level_dependencies (pre ++ (⟨i, lic, lf, dir, l1 ++ l2⟩ : Package) :: post) ps := by
  have hsame : ∀ acc, collectDeps ps (l1 ++ d :: l2) acc = collectDeps ps (l1 ++ l2) acc :=
    fun acc => collectDeps_skip_unmatched ps d hd l1 l2 acc
  simp only [top_level_dependencies]
  rw [collectMembers_congr_middle ps ⟨i, lic, lf, dir, l1 ++ d :: l2⟩
    ⟨i, lic, lf, dir, l1 ++ l2⟩ hsame pre post []]
  cases hc : collectMembers ps (pre ++ (⟨i, lic, lf, dir, l1 ++ l2⟩ : Package) :: post) [] with
  | error e => rfl
  | ok deps =>
    dsimp only
    rw [foldl_removeById_congr ⟨i, lic, lf, dir, l1 ++ d :: l2⟩
      ⟨i, lic, lf, dir, l1 ++ l2⟩ rfl pre post deps]

/-- Witness for the amended C1 at the sample graph: dropping the
unmatched dependency from the member leaves the result unchanged. -/
theorem c1_unmatched_silently_skipped_witness :
    top_level_dependencies [(⟨memberId, none, none, none, [unmatchedDep]⟩ : Package)] samplePS
      = top_level_dependencies [(⟨memberId, none, none, none, []⟩ : Package)] samplePS :=
  c1_unmatched_silently_skipped samplePS unmatchedDep rfl memberId none none none [] [] [] []

/-! ### Claim C5 -/

theorem bom_entries_spec (deps : List Package) :
    ∀ (acc out : List BomEntry), bom_entries deps acc = Except.ok out →
      (List.Pairwise (· < ·) acc → List.Pairwise (· < ·) out)
      ∧ (∀ e, e ∈ out ↔ e ∈ acc ∨ ∃ p ∈ deps, ∃ fl,
          package_license_files p = Except.ok fl ∧ mkEntry p fl = e) := by
  induction deps with
  | nil =>
    intro acc out h
    simp only [bom_entries] at h
    injection h with h2
    subst h2
    exact ⟨id, fun e => by simp⟩
  | cons p rest ih =>
    intro acc out h
    simp only [bom_entries] at h
    cases hf : package_license_files p with
    | error e2 =>
      rw [hf] at h
      simp at h
    | ok files =>
      rw [hf] at h
      dsimp only at h
      obtain ⟨h1, h2⟩ := ih (insertSorted (mkEntry p files) acc) out h
      constructor
      · intro hacc
        exact h1 (pairwise_insertSorted _ _ hacc)
      · intro e
        rw [h2 e]
        constructor
        · rintro (he | ⟨q, hq, fl, hfl, hmk⟩)
          · rcases (mem_insertSorted (mkEntry p files) e acc).1 he with rfl | he2
            · exact Or.inr ⟨p, List.mem_cons_self p rest, files, hf, rfl⟩
            · exact Or.inl he2
          · exact Or.inr ⟨q, List.mem_cons_of_mem p hq, fl, hfl, hmk⟩
        · rintro (he | ⟨q, hq, fl, hfl, hmk⟩)
          · exact Or.inl ((mem_insertSorted (mkEntry p files) e acc).2 (Or.inr he))
          · rcases List.mem_cons.1 hq with rfl | hq2
            · have hfe : files = fl := by
                rw [hf] at hfl
                injection hfl
              subst hfe
              exact Or.inl ((mem_insertSorted (mkEntry q files) e acc).2 (Or.inl hmk.symm))
            · exact Or.inr ⟨q, hq2, fl, hfl, hmk⟩

/-- C5: the BOM entry collection is keyed by the four-tuple (name,
version, license display string, license file list): the produced
sequence is strictly sorted in the lexicographic tuple order (hence
duplicate-free, so equal tuples collapse into one entry), its members are
exactly the tuples of the successfully processed dependencies, and
running the collection twice over the same resolved graph and filesystem
state yields an identical sequence. -/
theorem c5_entry_set_sorted_dedup (deps : List Package) (out : List BomEntry)
    (h : bom_entries deps [] = Except.ok out) :
    List.Pairwise (· < ·) out
    ∧ out.Nodup
    ∧ (∀ e, e ∈ out ↔ ∃ p ∈ deps, ∃ fl,
        package_license_files p = Except.ok fl ∧ mkEntry p fl = e)
    ∧ bom_entries deps [] = bom_entries deps [] := by
  obtain ⟨h1, h2⟩ := bom_entries_spec deps [] out h
  have hp : List.Pairwise (· < ·) out := h1 (by simp)
  refine ⟨hp, hp.imp ne_of_lt, fun e => ?_, rfl⟩
  rw [h2 e]
  simp

/-- Witness for C5: the sample dependency package alone yields the
one-entry collection. -/
theorem c5_entry_set_sorted_dedup_witness :
    List.Pairwise (· < ·) [mkEntry depPkg []]
    ∧ ([mkEntry depPkg []] : List BomEntry).Nodup
    ∧ (∀ e, e ∈ [mkEntry depPkg []] ↔ ∃ p ∈ [depPkg], ∃ fl,
        package_license_files p = Except.ok fl ∧ mkEntry p fl = e)
    ∧ bom_entries [depPkg] [] = bom_entries [depPkg] [] :=
  c5_entry_set_sorted_dedup [depPkg] [mkEntry depPkg []] rfl

/-! ### Adequacy of the split fuel -/

theorem splitGo_fuel_irrelevant (sep : Str) :
    ∀ (fuel fuel2 : Nat) (s acc : Str), s.length ≤ fuel → s.length ≤ fuel2 →
      splitGo sep fuel s acc = splitGo sep fuel2 s acc := by
  intro fuel
  induction fuel with
  | zero =>
    intro fuel2 s acc h1 h2
    have hs : s = [] := List.eq_nil_of_length_eq_zero (Nat.le_zero.mp h1)
    subst hs
    cases fuel2 <;> rfl
  | succ fuel ih =>
    intro fuel2 s acc h1 h2
    cases s with
    | nil => cases fuel2 <;> rfl
    | cons c cs =>
      cases fuel2 with
      | zero => exact absurd h2 (by simp)
      | succ f2 =>
        simp only [splitGo]
        by_cases hp : sep.isPrefixOf (c :: cs) = true ∧ sep ≠ []
        · rw [if_pos hp, if_pos hp]
          have hsep1 : 1 ≤ sep.length := List.length_pos.mpr hp.2
          have ha : (List.drop sep.length (c :: cs)).length ≤ fuel := by
            simp only [List.length_drop, List.length_cons]
            simp only [List.length_cons] at h1
            omega
          have hb : (List.drop sep.length (c :: cs)).length ≤ f2 := by
            simp only [List.length_drop, List.length_cons]
            simp only [List.length_cons] at h2
            omega
          rw [ih f2 (List.drop sep.length (c :: cs)) [] ha hb]
        · rw [if_neg hp, if_neg hp]
          have ha : cs.length ≤ fuel := by
            simp only [List.length_cons] at h1
            omega
          have hb : cs.length ≤ f2 := by
            simp only [List.length_cons] at h2
            omega
          rw [ih f2 cs (c :: acc) ha hb]
